import Mathlib

/-!
A shallow embedding of the lexer (`src/lex.rs`) and source-location registry
(`src/codemap.rs`) of the `static-analyser-in-rust` repository, together with
theorems about the embedded operations.

Modelling conventions:
* Source text is a `List Char`; byte offsets are computed with `Char.utf8Size`,
  matching `char::len_utf8` / `str::len` in the source.
* Rust panics (out-of-bounds string slices, `expect` failures) are modelled
  with `Option` (`none` = panic) or an explicit `panic` constructor.
* The `error-chain` `Error` type is modelled as the list of its `ErrorKind`s,
  outermost kind first; `chain_err` conses a new kind onto the chain.
* `usize` parsing is modelled for a 64-bit target: a digit string parses iff
  its value fits in `UInt64` range, mirroring `str::parse::<usize>` overflow
  failure.  `f64` parsing of the digit/dot strings produced by the numeric
  lexer is modelled by the exact rational value of the literal.
* Rust Unicode character classes (`is_alphabetic`, `is_alphanumeric`,
  `is_whitespace`) are modelled by the corresponding ASCII classifiers of
  `Char`; all concrete inputs in the claims are ASCII.
* The interior-mutable span table (`RefCell<HashMap<Span, Range>>`) is
  modelled as an association list, and the shared `AtomicUsize` counter as an
  explicitly threaded `Nat`.
-/

deriving instance DecidableEq for Except

namespace StaticAnalyser

/-- Total UTF-8 byte length of a character list (models `str::len`). -/
def byteLen (l : List Char) : Nat := (l.map Char.utf8Size).sum

/-- Drop `n` bytes from the front of a character list (models byte slicing
`&s[n..]` at a character boundary, as performed by `Tokenizer::chomp` and the
`skip` loop). -/
def dropBytes : List Char → Nat → List Char
  | l, 0 => l
  | [], _ + 1 => []
  | c :: cs, n + 1 => dropBytes cs (n + 1 - c.utf8Size)

/-- The `ErrorKind`s of `src/errors.rs` (including the `Msg` variant that
`error-chain` generates and the foreign links used by the lexer). -/
inductive ErrorKind where
  | Msg (s : String)
  | UnexpectedEOF
  | UnknownCharacter (ch : Char)
  | MessageWithLocation (loc : Nat) (msg : String)
  | FloatParsing
  | IntParsing
deriving DecidableEq

/-- An `error-chain` error: the outermost `ErrorKind` followed by the chain of
causes. -/
abbrev LexErr := List ErrorKind

/-- `Result::chain_err`: wrap an error in a new outer kind. -/
def chainErr (k : ErrorKind) (e : LexErr) : LexErr := k :: e

/-- `TokenKind` from `src/lex.rs`.  `Decimal` carries the exact rational value
of the parsed literal (standing in for the `f64` the code stores). -/
inductive TokenKind where
  | Integer (n : Nat)
  | Decimal (q : ℚ)
  | Identifier (s : String)
  | QuotedString (s : String)
  | Asterisk
  | At
  | Carat
  | CloseParen
  | CloseSquare
  | Colon
  | Dot
  | End
  | Equals
  | Minus
  | OpenParen
  | OpenSquare
  | Plus
  | Semicolon
  | Slash
deriving DecidableEq

/-- The character loop inside `take_while`: runs the (stateful) predicate on
successive characters, returning the final closure state and the accepted
prefix.  The predicate returns the updated captured state and whether to
continue, mirroring a Rust `FnMut` closure. -/
def takeWhileGo {σ : Type} (pred : σ → Char → σ × Bool) : List Char → σ → σ × List Char
  | [], s => (s, [])
  | c :: cs, s =>
    let p := pred s c
    if p.2 then
      let r := takeWhileGo pred cs p.1
      (r.1, c :: r.2)
    else (p.1, [])

/-- `take_while` for a stateful closure: consumes characters while the
predicate evaluates to true, failing with "No Matches" when zero bytes were
consumed.  Returns the final closure state alongside the result (in the
source the state lives in the caller-owned closure environment). -/
def take_while_st {σ : Type} (data : List Char) (s0 : σ) (pred : σ → Char → σ × Bool) :
    σ × Except LexErr (List Char × Nat) :=
  let r := takeWhileGo pred data s0
  if byteLen r.2 = 0 then (r.1, .error [.Msg ("No Matches")])
  else (r.1, .ok (r.2, byteLen r.2))

/-- `take_while` from `src/lex.rs` for a pure predicate. -/
def take_while (data : List Char) (pred : Char → Bool) : Except LexErr (List Char × Nat) :=
  (take_while_st data () (fun _ c => ((), pred c))).2

/-- `tokenize_ident` from `src/lex.rs`. -/
def tokenize_ident (data : List Char) : Except LexErr (TokenKind × Nat) :=
  match data with
  | [] => .error [.UnexpectedEOF]
  | ch :: _ =>
    if ch.isDigit then .error [.Msg ("Identifiers can't start with a number")]
    else
      match take_while data (fun c => c == '_' || c.isAlphanum) with
      | .error e => .error e
      | .ok (got, bytes_read) => .ok (.Identifier (String.mk got), bytes_read)

/-- Accumulate the value of a digit string (most significant digit first). -/
def digitsToNat (l : List Char) : Nat :=
  l.foldl (fun acc c => 10 * acc + (c.toNat - 48)) 0

/-- Largest `usize` value, assuming the usual 64-bit target. -/
def USIZE_MAX : Nat := 2 ^ 64 - 1

/-- `str::parse::<usize>` on the digit strings the numeric lexer produces:
succeeds iff the string is a nonempty run of decimal digits whose value fits
in `usize`.  (Rust also accepts a leading sign, which the lexer never
produces.) -/
def parseUsize (l : List Char) : Option Nat :=
  if l ≠ [] ∧ l.all Char.isDigit = true ∧ digitsToNat l ≤ USIZE_MAX then
    some (digitsToNat l)
  else none

/-- `str::parse::<f64>` on strings made of decimal digits and dots: succeeds
iff there is at most one dot and at least one digit, returning the exact
rational value of the literal (digits with the dot removed, over ten to the
number of fractional digits).  (Signs, exponents and `inf`/`NaN` spellings
never reach the parser from the numeric lexer.) -/
def parseF64 (l : List Char) : Option ℚ :=
  if l.all (fun c => c.isDigit || c == '.') = true ∧ l.count '.' ≤ 1 ∧
      l.any Char.isDigit = true then
    let fp := (l.dropWhile (fun c => !(c == '.'))).tail
    some (mkRat (digitsToNat (l.filter (fun c => !(c == '.')))) (10 ^ fp.length))
  else none

/-- The stateful closure of `tokenize_number`: the captured state is
`seen_dot`; digits are always accepted, the first dot is accepted (setting
`seen_dot`), a second dot or any other character stops the run. -/
def numPred (seen : Bool) (c : Char) : Bool × Bool :=
  if c.isDigit then (seen, true)
  else if c == '.' then
    if !seen then (true, true) else (seen, false)
  else (seen, false)

/-- `tokenize_number` from `src/lex.rs`. -/
def tokenize_number (data : List Char) : Except LexErr (TokenKind × Nat) :=
  let r := take_while_st data false numPred
  match r.2 with
  | .error e => .error e
  | .ok (decimal, bytes_read) =>
    if r.1 then
      match parseF64 decimal with
      | some n => .ok (.Decimal n, bytes_read)
      | none => .error [.FloatParsing]
    else
      match parseUsize decimal with
      | some n => .ok (.Integer n, bytes_read)
      | none => .error [.IntParsing]

/-- `skip_whitespace` from `src/lex.rs`. -/
def skip_whitespace (data : List Char) : Nat :=
  match take_while data Char.isWhitespace with
  | .ok (_, bytes_skipped) => bytes_skipped
  | _ => 0

/-- `skip_until` from `src/lex.rs`: drop characters until the input starts
with `pattern`, then return everything after `pattern`.  When the input runs
out first, the final slice `&src[pattern.len()..]` is out of bounds for a
nonempty pattern — a panic, modelled as `none`. -/
def skip_until : List Char → List Char → Option (List Char)
  | [], pat => if pat.isEmpty then some [] else none
  | c :: cs, pat =>
    if pat.isPrefixOf (c :: cs) then some ((c :: cs).drop pat.length)
    else skip_until cs pat

/-- `skip_comments` from `src/lex.rs`: three comment forms, checked by prefix
in order; returns the number of bytes consumed (`none` = panic inside
`skip_until`). -/
def skip_comments (src : List Char) : Option Nat :=
  if List.isPrefixOf ['/', '/'] src then
    (skip_until src ['\n']).map (fun leftovers => byteLen src - byteLen leftovers)
  else if List.isPrefixOf ['\x7b'] src then
    (skip_until src ['\x7d']).map (fun leftovers => byteLen src - byteLen leftovers)
  else if List.isPrefixOf ['(', '*'] src then
    (skip_until src ['*', ')']).map (fun leftovers => byteLen src - byteLen leftovers)
  else some 0

/-- The loop of `skip` from `src/lex.rs`, with explicit fuel (outer `none` =
fuel exhausted, which `skipFuel_isSome` rules out for sufficient fuel; inner
`none` = panic propagated from `skip_comments`).  `original` is the byte
length of the string `skip` was called on. -/
def skipFuel : Nat → Nat → List Char → Option (Option Nat)
  | 0, _, _ => none
  | fuel + 1, original, remaining =>
    let ws := skip_whitespace remaining
    let rem1 := dropBytes remaining ws
    match skip_comments rem1 with
    | none => some none
    | some comments =>
      let rem2 := dropBytes rem1 comments
      if ws + comments = 0 then some (some (original - byteLen rem2))
      else skipFuel fuel original rem2

/-- `skip` from `src/lex.rs` (`none` = panic). -/
def skip (src : List Char) : Option Nat :=
  (skipFuel (byteLen src + 1) (byteLen src) src).getD none

/-- The twelve single-character punctuation arms of the `match` in
`tokenize_single_token`, factored into one lookup. -/
def punctTok (next : Char) : Option TokenKind :=
  if next == '.' then some .Dot
  else if next == '=' then some .Equals
  else if next == '+' then some .Plus
  else if next == '-' then some .Minus
  else if next == '*' then some .Asterisk
  else if next == '/' then some .Slash
  else if next == '@' then some .At
  else if next == '^' then some .Carat
  else if next == '(' then some .OpenParen
  else if next == ')' then some .CloseParen
  else if next == '[' then some .OpenSquare
  else if next == ']' then some .CloseSquare
  else none

/-- `tokenize_single_token` from `src/lex.rs`.  The identifier arm is
`c @ '_' | c if c.is_alphabetic()`: a Rust match guard governs every
alternative of an or-pattern, so the arm is taken exactly when the character
is alphabetic — a leading `'_'` fails the guard and falls through to the
`UnknownCharacter` arm. -/
def tokenize_single_token : List Char → Except LexErr (TokenKind × Nat)
  | [] => .error [.UnexpectedEOF]
  | data@(next :: _) =>
    match punctTok next with
    | some k => .ok (k, 1)
    | none =>
      if next.isDigit then
        match tokenize_number data with
        | .ok r => .ok r
        | .error e => .error (chainErr (.Msg ("Couldn't tokenize a number")) e)
      else if next.isAlpha then
        match tokenize_ident data with
        | .ok r => .ok r
        | .error e => .error (chainErr (.Msg ("Couldn't tokenize an identifier")) e)
      else .error [.UnknownCharacter next]

/-- Outcome of running the whole tokenizer: a Rust panic, an `Err`, or an
`Ok` list of `(kind, start, end)` triples. -/
inductive RunResult where
  | panic
  | err (e : LexErr)
  | ok (toks : List (TokenKind × Nat × Nat))
deriving DecidableEq

/-- The `while let Some(tok) = tokenizer.next_token()?` loop of `tokenize`,
with explicit fuel (`none` = fuel exhausted; `tokenizeFuel_isSome` shows
`length + 1` fuel always suffices).  `idx` is `Tokenizer::current_index`,
`remaining` is `Tokenizer::remaining_text`. -/
def tokenizeFuel : Nat → Nat → List Char → Option RunResult
  | 0, _, _ => none
  | fuel + 1, idx, remaining =>
    match skip remaining with
    | none => some .panic
    | some skipped =>
      let idx1 := idx + skipped
      let rem1 := dropBytes remaining skipped
      if rem1.isEmpty then some (.ok [])
      else
        match tokenize_single_token rem1 with
        | .error e =>
          some (.err (chainErr (.MessageWithLocation idx1 ("Couldn't read the next token")) e))
        | .ok (tok, len) =>
          match tokenizeFuel fuel (idx1 + len) (dropBytes rem1 len) with
          | none => none
          | some .panic => some .panic
          | some (.err e) => some (.err e)
          | some (.ok ts) => some (.ok ((tok, idx1, idx1 + len) :: ts))

/-- `tokenize` from `src/lex.rs`. -/
def tokenize (src : List Char) : RunResult :=
  (tokenizeFuel (src.length + 1) 0 src).getD .panic

/-- `Span` from `src/codemap.rs`: a wrapper around the interned id. -/
structure Span where
  id : Nat
deriving DecidableEq

/-- `Span::dummy`. -/
def Span.dummy : Span := ⟨0⟩

/-- `Token` from `src/lex.rs`. -/
structure Token where
  span : Span
  kind : TokenKind
deriving DecidableEq

/-- `FileMap` from `src/codemap.rs`; the `RefCell<HashMap<Span, Range>>` span
table is modelled as an association list from spans to half-open byte ranges.
The shared `AtomicUsize` counter is threaded explicitly through the
operations. -/
structure FileMap where
  name : String
  contents : String
  items : List (Span × Nat × Nat)
deriving DecidableEq

/-- `FileMap::reverse_lookup`: scan the existing entries for one whose range
is exactly `[s, e)`. -/
def FileMap.reverse_lookup (fm : FileMap) (s e : Nat) : Option Span :=
  (fm.items.find? (fun it => it.2.1 == s && it.2.2 == e)).map (fun it => it.1)

/-- `FileMap::insert_span`, with the shared counter `next_id` passed and
returned explicitly: return the existing span for an identical range, or
allocate the next id and record the new entry. -/
def FileMap.insert_span (fm : FileMap) (next_id s e : Nat) : Span × FileMap × Nat :=
  match fm.reverse_lookup s e with
  | some existing => (existing, fm, next_id)
  | none =>
    let span : Span := ⟨next_id⟩
    (span, { fm with items := (span, s, e) :: fm.items }, next_id + 1)

/-- `FileMap::range_of`. -/
def FileMap.range_of (fm : FileMap) (span : Span) : Option (Nat × Nat) :=
  (fm.items.find? (fun it => it.1 == span)).map (fun it => it.2)

/-- `FileMap::merge`; the two `expect` calls panic (`none`) when either span
does not belong to this `FileMap`. -/
def FileMap.merge (fm : FileMap) (next_id : Nat) (first second : Span) :
    Option (Span × FileMap × Nat) :=
  match fm.range_of first, fm.range_of second with
  | some r1, some r2 => some (fm.insert_span next_id (min r1.1 r2.1) (max r1.2 r2.2))
  | _, _ => none

/-- `FileMap::register_tokens`. -/
def FileMap.register_tokens (fm : FileMap) (next_id : Nat) :
    List (TokenKind × Nat × Nat) → List Token × FileMap × Nat
  | [] => ([], fm, next_id)
  | (kind, s, e) :: rest =>
    let r := fm.insert_span next_id s e
    let r2 := FileMap.register_tokens r.2.1 r.2.2 rest
    (⟨r.1, kind⟩ :: r2.1, r2.2.1, r2.2.2)

/-- `CodeMap` from `src/codemap.rs`: the shared counter plus the list of
files. -/
structure CodeMap where
  next_id : Nat
  files : List FileMap
deriving DecidableEq

/-- `CodeMap::new`: the counter starts at 1. -/
def CodeMap.new : CodeMap := { next_id := 1, files := [] }

/-- `CodeMap::insert_file`. -/
def CodeMap.insert_file (cm : CodeMap) (filename contents : String) : CodeMap × FileMap :=
  let fm : FileMap := { name := filename, contents := contents, items := [] }
  ({ cm with files := cm.files ++ [fm] }, fm)

/-- One external call on a `CodeMap` / one of its `FileMap`s (the `FileMap`
is named by its position in the file list, standing in for the `Rc` handle). -/
inductive CodeMapOp where
  | insertFile (name contents : String)
  | insertSpan (file s e : Nat)
  | mergeSpans (file : Nat) (first second : Span)
  | registerTokens (file : Nat) (toks : List (TokenKind × Nat × Nat))

/-- Apply one operation to a `CodeMap`, returning the updated map and the
spans handed back to the caller by that call (a panicking `merge` and an
out-of-range file handle return no spans). -/
def applyOp (cm : CodeMap) : CodeMapOp → CodeMap × List Span
  | .insertFile name contents => ((cm.insert_file name contents).1, [])
  | .insertSpan i s e =>
    match cm.files[i]? with
    | none => (cm, [])
    | some fm =>
      let r := fm.insert_span cm.next_id s e
      ({ next_id := r.2.2, files := cm.files.set i r.2.1 }, [r.1])
  | .mergeSpans i first second =>
    match cm.files[i]? with
    | none => (cm, [])
    | some fm =>
      match fm.merge cm.next_id first second with
      | none => (cm, [])
      | some r => ({ next_id := r.2.2, files := cm.files.set i r.2.1 }, [r.1])
  | .registerTokens i toks =>
    match cm.files[i]? with
    | none => (cm, [])
    | some fm =>
      let r := fm.register_tokens cm.next_id toks
      ({ next_id := r.2.2, files := cm.files.set i r.2.1 }, r.1.map Token.span)

/-- Run a sequence of operations from a starting `CodeMap`, collecting every
span returned to the caller along the way. -/
def runOps : CodeMap → List CodeMapOp → CodeMap × List Span
  | cm, [] => (cm, [])
  | cm, op :: ops =>
    let r := applyOp cm op
    let r2 := runOps r.1 ops
    (r2.1, r.2 ++ r2.2)

/-- Specification-side description of the run the numeric lexer accepts: the
maximal prefix of digits containing at most one dot (`seen` records whether a
dot was already taken). -/
def numRun : List Char → Bool → List Char
  | [], _ => []
  | c :: cs, seen =>
    if c.isDigit then c :: numRun cs seen
    else if c == '.' && !seen then c :: numRun cs true
    else []

/-- Does `pat` occur as a contiguous subsequence of `l`?  (Used to state that
a comment has no closing marker.) -/
def containsSeq (l pat : List Char) : Bool :=
  l.tails.any (fun t => pat.isPrefixOf t)

/-- The triples `(kind, start, end)` are positionally well formed: each token
starts no earlier than `lo`, is nonempty, ends by `hi`, and successive tokens
do not overlap. -/
def wellSpaced (lo hi : Nat) : List (TokenKind × Nat × Nat) → Prop
  | [] => True
  | (_, s, e) :: rest => lo ≤ s ∧ s < e ∧ e ≤ hi ∧ wellSpaced e hi rest

/-- Well-formedness of a `FileMap`'s span table relative to the shared
counter: every recorded id was allocated below the counter, and the table's
keys are distinct (it models a `HashMap` keyed by `Span`). -/
def FileMap.WF (fm : FileMap) (next_id : Nat) : Prop :=
  (∀ it ∈ fm.items, it.1.id < next_id) ∧ (fm.items.map (fun it => it.1)).Nodup

/-- Every id the registry has handed out or recorded is at least 1 (the
dummy span is id 0). -/
def CodeMap.SpanPos (cm : CodeMap) : Prop :=
  1 ≤ cm.next_id ∧ ∀ fm ∈ cm.files, ∀ it ∈ fm.items, 1 ≤ it.1.id

/-! ## Byte-length and slicing lemmas -/

theorem byteLen_nil : byteLen [] = 0 := rfl

theorem byteLen_cons (c : Char) (cs : List Char) :
    byteLen (c :: cs) = c.utf8Size + byteLen cs := by
  simp [byteLen]

theorem byteLen_eq_nil {l : List Char} (h : byteLen l = 0) : l = [] := by
  cases l with
  | nil => rfl
  | cons c cs =>
    rw [byteLen_cons] at h
    have := Char.utf8Size_pos c
    omega

theorem byteLen_pos {l : List Char} (h : l ≠ []) : 1 ≤ byteLen l := by
  cases l with
  | nil => exact absurd rfl h
  | cons c cs =>
    rw [byteLen_cons]
    have := Char.utf8Size_pos c
    omega

theorem dropBytes_zero (l : List Char) : dropBytes l 0 = l := by
  cases l <;> rfl

theorem dropBytes_length_le (l : List Char) (n : Nat) :
    (dropBytes l n).length ≤ l.length := by
  induction l generalizing n with
  | nil => cases n <;> simp [dropBytes]
  | cons c cs ih =>
    cases n with
    | zero => simp [dropBytes]
    | succ m =>
      calc (dropBytes (c :: cs) (m + 1)).length
          = (dropBytes cs (m + 1 - c.utf8Size)).length := rfl
        _ ≤ cs.length := ih _
        _ ≤ (c :: cs).length := by simp

theorem dropBytes_length_lt {l : List Char} {n : Nat} (hl : l ≠ []) (hn : 1 ≤ n) :
    (dropBytes l n).length < l.length := by
  cases l with
  | nil => exact absurd rfl hl
  | cons c cs =>
    cases n with
    | zero => omega
    | succ m =>
      calc (dropBytes (c :: cs) (m + 1)).length
          = (dropBytes cs (m + 1 - c.utf8Size)).length := rfl
        _ ≤ cs.length := dropBytes_length_le _ _
        _ < (c :: cs).length := by simp

theorem byteLen_dropBytes_le (l : List Char) (n : Nat) :
    byteLen (dropBytes l n) ≤ byteLen l - n := by
  induction l generalizing n with
  | nil => cases n <;> simp [dropBytes, byteLen_nil]
  | cons c cs ih =>
    cases n with
    | zero => simp [dropBytes]
    | succ m =>
      have h1 : byteLen (dropBytes cs (m + 1 - c.utf8Size)) ≤ byteLen cs - (m + 1 - c.utf8Size) :=
        ih _
      have h2 : byteLen (dropBytes (c :: cs) (m + 1)) = byteLen (dropBytes cs (m + 1 - c.utf8Size)) :=
        rfl


      rw [h2, byteLen_cons]
      omega

theorem byteLen_dropBytes_le' (l : List Char) (n : Nat) :
    byteLen (dropBytes l n) ≤ byteLen l :=
  le_trans (byteLen_dropBytes_le l n) (Nat.sub_le _ _)

/-! ## `take_while` lemmas -/

theorem takeWhileGo_byteLen_le {σ : Type} (pred : σ → Char → σ × Bool) (l : List Char) (s : σ) :
    byteLen (takeWhileGo pred l s).2 ≤ byteLen l := by
  induction l generalizing s with
  | nil => simp [takeWhileGo, byteLen_nil]
  | cons c cs ih =>
    simp only [takeWhileGo]
    split
    · rw [byteLen_cons, byteLen_cons]
      exact Nat.add_le_add_left (ih _) _
    · rw [byteLen_cons]
      have := Char.utf8Size_pos c
      simp [byteLen_nil]

theorem take_while_st_ok {σ : Type} {data : List Char} {s0 : σ}
    {pred : σ → Char → σ × Bool} {taken : List Char} {n : Nat}
    (h : (take_while_st data s0 pred).2 = .ok (taken, n)) :
    n = byteLen taken ∧ taken = (takeWhileGo pred data s0).2 ∧ 1 ≤ n ∧ n ≤ byteLen data := by
  simp only [take_while_st] at h
  split at h
  · simp at h
  · rename_i hne
    simp only [Except.ok.injEq, Prod.mk.injEq] at h
    obtain ⟨h1, h2⟩ := h
    subst h1
    subst h2
    exact ⟨rfl, rfl, by omega, takeWhileGo_byteLen_le _ _ _⟩

theorem take_while_ok {data : List Char} {pred : Char → Bool} {taken : List Char} {n : Nat}
    (h : take_while data pred = .ok (taken, n)) :
    n = byteLen taken ∧ 1 ≤ n ∧ n ≤ byteLen data := by
  have h' : (take_while_st data () (fun _ c => ((), pred c))).2 = .ok (taken, n) := h
  have := take_while_st_ok h'
  exact ⟨this.1, this.2.2⟩

/-! ## `skip_whitespace` and `skip_comments` lemmas -/

theorem skip_whitespace_le (data : List Char) : skip_whitespace data ≤ byteLen data := by
  unfold skip_whitespace
  split
  · rename_i l n h
    exact (take_while_ok h).2.2
  · exact Nat.zero_le _

theorem skip_whitespace_nil : skip_whitespace [] = 0 := rfl

theorem skip_comments_nil : skip_comments [] = some 0 := rfl

theorem skip_comments_le {src : List Char} {c : Nat} (h : skip_comments src = some c) :
    c ≤ byteLen src := by
  unfold skip_comments at h
  split at h
  · rw [Option.map_eq_some'] at h
    obtain ⟨l, -, hl⟩ := h
    omega
  · split at h
    · rw [Option.map_eq_some'] at h
      obtain ⟨l, -, hl⟩ := h
      omega
    · split at h
      · rw [Option.map_eq_some'] at h
        obtain ⟨l, -, hl⟩ := h
        omega
      · simp at h
        omega

/-! ## `skip` lemmas -/

theorem skipFuel_isSome {fuel : Nat} (original : Nat) {rem : List Char}
    (h : byteLen rem < fuel) : (skipFuel fuel original rem).isSome = true := by
  induction fuel generalizing rem with
  | zero => omega
  | succ f ih =>
    simp only [skipFuel]
    cases hc : skip_comments (dropBytes rem (skip_whitespace rem)) with
    | none => simp
    | some comments =>
      simp only
      split
      · simp
      · rename_i hne
        apply ih
        have hws : skip_whitespace rem ≤ byteLen rem := skip_whitespace_le rem
        have h1 : byteLen (dropBytes rem (skip_whitespace rem)) ≤
            byteLen rem - skip_whitespace rem := byteLen_dropBytes_le _ _
        have h2 : comments ≤ byteLen (dropBytes rem (skip_whitespace rem)) :=
          skip_comments_le hc
        have h3 : byteLen (dropBytes (dropBytes rem (skip_whitespace rem)) comments) ≤
            byteLen (dropBytes rem (skip_whitespace rem)) - comments :=
          byteLen_dropBytes_le _ _
        omega

theorem skipFuel_le {fuel original : Nat} {rem : List Char} {n : Nat}
    (h : skipFuel fuel original rem = some (some n)) : n ≤ original := by
  induction fuel generalizing rem with
  | zero => simp [skipFuel] at h
  | succ f ih =>
    simp only [skipFuel] at h
    cases hc : skip_comments (dropBytes rem (skip_whitespace rem)) with
    | none => rw [hc] at h; simp at h
    | some comments =>
      rw [hc] at h
      simp only at h
      split at h
      · simp at h
        omega
      · exact ih h

theorem skip_le {src : List Char} {n : Nat} (h : skip src = some n) : n ≤ byteLen src := by
  unfold skip at h
  cases hs : skipFuel (byteLen src + 1) (byteLen src) src with
  | none => rw [hs] at h; simp at h
  | some v =>
    rw [hs] at h
    cases v with
    | none => simp at h
    | some m =>
      simp at h
      subst h
      exact skipFuel_le hs

/-! ## Token length bounds -/

theorem tokenize_number_len {data : List Char} {tok : TokenKind} {len : Nat}
    (h : tokenize_number data = .ok (tok, len)) : 1 ≤ len ∧ len ≤ byteLen data := by
  simp only [tokenize_number] at h
  split at h
  · simp at h
  · rename_i decimal bytes_read heq
    obtain ⟨-, -, h1, h2⟩ := take_while_st_ok heq
    split at h
    · split at h
      · simp at h
        obtain ⟨-, h3⟩ := h
        omega
      · simp at h
    · split at h
      · simp at h
        obtain ⟨-, h3⟩ := h
        omega
      · simp at h

theorem tokenize_ident_len {data : List Char} {tok : TokenKind} {len : Nat}
    (h : tokenize_ident data = .ok (tok, len)) : 1 ≤ len ∧ len ≤ byteLen data := by
  cases data with
  | nil => simp [tokenize_ident] at h
  | cons ch rest =>
    simp only [tokenize_ident] at h
    split at h
    · simp at h
    · cases hw : take_while (ch :: rest) (fun c => c == '_' || c.isAlphanum) with
      | error e => rw [hw] at h; simp at h
      | ok v =>
        obtain ⟨got, n⟩ := v
        rw [hw] at h
        simp at h
        have := take_while_ok hw
        omega

theorem tokenize_single_token_len {data : List Char} {tok : TokenKind} {len : Nat}
    (h : tokenize_single_token data = .ok (tok, len)) : 1 ≤ len ∧ len ≤ byteLen data := by
  cases data with
  | nil => exact Except.noConfusion h
  | cons next rest =>
    have hb : 1 ≤ byteLen (next :: rest) := byteLen_pos (by simp)
    unfold tokenize_single_token at h
    split at h
    · exact Except.noConfusion h
    · rename_i ch tail heq
      injection heq with e1 e2
      subst e1
      subst e2
      split at h
      · injection h with h1
        injection h1 with h2 h3
        omega
      · split at h
        · split at h
          · rename_i heq2
            injection h with h1
            subst h1
            exact tokenize_number_len heq2
          · exact Except.noConfusion h
        · split at h
          · split at h
            · rename_i heq2
              injection h with h1
              subst h1
              exact tokenize_ident_len heq2
            · exact Except.noConfusion h
          · exact Except.noConfusion h

/-! ## Tokenizer loop lemmas -/

theorem tokenizeFuel_isSome {fuel : Nat} (idx : Nat) {rem : List Char}
    (h : rem.length < fuel) : (tokenizeFuel fuel idx rem).isSome = true := by
  induction fuel generalizing idx rem with
  | zero => omega
  | succ f ih =>
    simp only [tokenizeFuel]
    cases hs : skip rem with
    | none => simp
    | some skipped =>
      simp only
      split
      · simp
      · rename_i hne
        cases ht : tokenize_single_token (dropBytes rem skipped) with
        | error e => simp
        | ok v =>
          obtain ⟨tok, len⟩ := v
          simp only
          have hlen := tokenize_single_token_len ht
          have hne' : dropBytes rem skipped ≠ [] := by
            intro hx
            rw [hx] at hne
            simp at hne
          have hlt : (dropBytes (dropBytes rem skipped) len).length <
              (dropBytes rem skipped).length := dropBytes_length_lt hne' hlen.1
          have hle : (dropBytes rem skipped).length ≤ rem.length := dropBytes_length_le _ _
          have hs2 := @ih (idx + skipped + len)
            (dropBytes (dropBytes rem skipped) len) (by omega)
          obtain ⟨r, hr⟩ := Option.isSome_iff_exists.mp hs2
          rw [hr]
          cases r <;> simp

theorem tokenizeFuel_err_located {fuel idx : Nat} {rem : List Char} {e : LexErr}
    (h : tokenizeFuel fuel idx rem = some (.err e)) :
    ∃ loc rest, e = ErrorKind.MessageWithLocation loc ("Couldn't read the next token") :: rest := by
  induction fuel generalizing idx rem with
  | zero => simp [tokenizeFuel] at h
  | succ f ih =>
    simp only [tokenizeFuel] at h
    cases hs : skip rem with
    | none => rw [hs] at h; simp at h
    | some skipped =>
      rw [hs] at h
      simp only at h
      split at h
      · simp at h
      · cases ht : tokenize_single_token (dropBytes rem skipped) with
        | error e2 =>
          rw [ht] at h
          simp at h
          exact ⟨idx + skipped, e2, h.symm⟩
        | ok v =>
          obtain ⟨tok, len⟩ := v
          rw [ht] at h
          simp only at h
          cases hrec : tokenizeFuel f (idx + skipped + len)
              (dropBytes (dropBytes rem skipped) len) with
          | none => rw [hrec] at h; simp at h
          | some r =>
            rw [hrec] at h
            cases r with
            | panic => simp at h
            | err e3 =>
              simp at h
              subst h
              exact ih hrec
            | ok ts => simp at h

theorem wellSpaced_mono {lo lo' hi hi' : Nat} {ts : List (TokenKind × Nat × Nat)}
    (h : wellSpaced lo hi ts) (h1 : lo' ≤ lo) (h2 : hi ≤ hi') : wellSpaced lo' hi' ts := by
  induction ts generalizing lo lo' with
  | nil => trivial
  | cons t rest ih =>
    obtain ⟨k, s, e⟩ := t
    obtain ⟨ha, hb, hc, hd⟩ := h
    exact ⟨by omega, hb, by omega, ih hd (le_refl e)⟩

theorem tokenizeFuel_ok_wellSpaced {fuel idx : Nat} {rem : List Char}
    {ts : List (TokenKind × Nat × Nat)}
    (h : tokenizeFuel fuel idx rem = some (.ok ts)) :
    wellSpaced idx (idx + byteLen rem) ts := by
  induction fuel generalizing idx rem ts with
  | zero => simp [tokenizeFuel] at h
  | succ f ih =>
    simp only [tokenizeFuel] at h
    cases hs : skip rem with
    | none => rw [hs] at h; simp at h
    | some skipped =>
      rw [hs] at h
      simp only at h
      split at h
      · simp at h
        subst h
        trivial
      · rename_i hne
        cases ht : tokenize_single_token (dropBytes rem skipped) with
        | error e => rw [ht] at h; simp at h
        | ok v =>
          obtain ⟨tok, len⟩ := v
          rw [ht] at h
          simp only at h
          cases hrec : tokenizeFuel f (idx + skipped + len)
              (dropBytes (dropBytes rem skipped) len) with
          | none => rw [hrec] at h; simp at h
          | some r =>
            rw [hrec] at h
            cases r with
            | panic => simp at h
            | err e => simp at h
            | ok ts' =>
              simp at h
              subst h
              have htail := ih hrec
              have hsk : skipped ≤ byteLen rem := skip_le hs
              have h1 : byteLen (dropBytes rem skipped) ≤ byteLen rem - skipped :=
                byteLen_dropBytes_le _ _
              have hlen := tokenize_single_token_len ht
              have h2 : byteLen (dropBytes (dropBytes rem skipped) len) ≤
                  byteLen (dropBytes rem skipped) - len := byteLen_dropBytes_le _ _
              refine ⟨by omega, by omega, by omega, ?_⟩
              exact wellSpaced_mono htail (le_refl _) (by omega)

/-! ## `skip_until` lemmas -/

theorem skip_until_none {src pat : List Char} (hpat : pat ≠ [])
    (h : containsSeq src pat = false) : skip_until src pat = none := by
  induction src with
  | nil =>
    cases pat with
    | nil => exact absurd rfl hpat
    | cons p ps => rfl
  | cons c cs ih =>
    simp only [containsSeq, List.tails_cons, List.any_cons, Bool.or_eq_false_iff] at h
    simp only [skip_until, h.1]
    simp only [Bool.false_eq_true, if_false]
    exact ih h.2

/-! ## Span registry lemmas -/

theorem reverse_lookup_some {fm : FileMap} {s e : Nat} {sp : Span}
    (h : fm.reverse_lookup s e = some sp) :
    ∃ it ∈ fm.items, it.1 = sp ∧ it.2.1 = s ∧ it.2.2 = e := by
  unfold FileMap.reverse_lookup at h
  rw [Option.map_eq_some'] at h
  obtain ⟨it, hfind, hsp⟩ := h
  have hmem := List.mem_of_find?_eq_some hfind
  have hpred := List.find?_some hfind
  simp only [Bool.and_eq_true, beq_iff_eq] at hpred
  exact ⟨it, hmem, hsp, hpred.1, hpred.2⟩

theorem insert_span_pos {fm : FileMap} {n : Nat} (hit : ∀ it ∈ fm.items, 1 ≤ it.1.id)
    (hn : 1 ≤ n) (s e : Nat) :
    1 ≤ (fm.insert_span n s e).1.id ∧
    (∀ it ∈ (fm.insert_span n s e).2.1.items, 1 ≤ it.1.id) ∧
    1 ≤ (fm.insert_span n s e).2.2 := by
  unfold FileMap.insert_span
  cases h : fm.reverse_lookup s e with
  | some sp =>
    simp only
    obtain ⟨it, hmem, hsp, -, -⟩ := reverse_lookup_some h
    exact ⟨hsp ▸ hit it hmem, hit, hn⟩
  | none =>
    simp only
    refine ⟨hn, ?_, by omega⟩
    intro it hmem
    rcases List.mem_cons.mp hmem with h1 | h1
    · subst h1
      exact hn
    · exact hit it h1

theorem register_tokens_pos {fm : FileMap} {n : Nat} (hit : ∀ it ∈ fm.items, 1 ≤ it.1.id)
    (hn : 1 ≤ n) (toks : List (TokenKind × Nat × Nat)) :
    (∀ t ∈ (FileMap.register_tokens fm n toks).1, 1 ≤ t.span.id) ∧
    (∀ it ∈ (FileMap.register_tokens fm n toks).2.1.items, 1 ≤ it.1.id) ∧
    1 ≤ (FileMap.register_tokens fm n toks).2.2 := by
  induction toks generalizing fm n with
  | nil => exact ⟨by simp [FileMap.register_tokens], hit, hn⟩
  | cons t rest ih =>
    obtain ⟨kind, s, e⟩ := t
    have h1 := insert_span_pos hit hn s e
    have h2 := @ih (fm.insert_span n s e).2.1 (fm.insert_span n s e).2.2
      h1.2.1 h1.2.2
    simp only [FileMap.register_tokens]
    refine ⟨?_, h2.2.1, h2.2.2⟩
    intro t ht
    rcases List.mem_cons.mp ht with h3 | h3
    · subst h3
      exact h1.1
    · exact h2.1 t h3

theorem merge_pos {fm : FileMap} {n : Nat} {first second : Span} {r : Span × FileMap × Nat}
    (hit : ∀ it ∈ fm.items, 1 ≤ it.1.id) (hn : 1 ≤ n)
    (h : fm.merge n first second = some r) :
    1 ≤ r.1.id ∧ (∀ it ∈ r.2.1.items, 1 ≤ it.1.id) ∧ 1 ≤ r.2.2 := by
  unfold FileMap.merge at h
  split at h
  · simp only [Option.some.injEq] at h
    subst h
    exact insert_span_pos hit hn _ _
  · simp at h

theorem applyOp_spanPos {cm : CodeMap} (op : CodeMapOp) (h : cm.SpanPos) :
    (applyOp cm op).1.SpanPos ∧ ∀ sp ∈ (applyOp cm op).2, 1 ≤ sp.id := by
  obtain ⟨hn, hfiles⟩ := h
  cases op with
  | insertFile name contents =>
    refine ⟨⟨hn, ?_⟩, by simp [applyOp]⟩
    intro fm hfm it hit
    simp only [applyOp, CodeMap.insert_file] at hfm
    rcases List.mem_append.mp hfm with h1 | h1
    · exact hfiles fm h1 it hit
    · simp at h1
      subst h1
      simp at hit
  | insertSpan i s e =>
    simp only [applyOp]
    cases hg : cm.files[i]? with
    | none => exact ⟨⟨hn, hfiles⟩, by simp⟩
    | some fm =>
      have hfm := hfiles fm (List.getElem?_mem hg)
      have hp := insert_span_pos hfm hn s e
      refine ⟨⟨hp.2.2, ?_⟩, ?_⟩
      · intro fm' hfm' it hit
        rcases List.mem_or_eq_of_mem_set hfm' with h1 | h1
        · exact hfiles fm' h1 it hit
        · subst h1
          exact hp.2.1 it hit
      · intro sp hsp
        simp at hsp
        subst hsp
        exact hp.1
  | mergeSpans i first second =>
    cases hg : cm.files[i]? with
    | none =>
      have happ : applyOp cm (.mergeSpans i first second) = (cm, []) := by
        simp [applyOp, hg]
      rw [happ]
      exact ⟨⟨hn, hfiles⟩, by simp⟩
    | some fm =>
      have hfm := hfiles fm (List.getElem?_mem hg)
      cases hm : fm.merge cm.next_id first second with
      | none =>
        have happ : applyOp cm (.mergeSpans i first second) = (cm, []) := by
          simp [applyOp, hg, hm]
        rw [happ]
        exact ⟨⟨hn, hfiles⟩, by simp⟩
      | some r =>
        have happ : applyOp cm (.mergeSpans i first second) =
            ({ next_id := r.2.2, files := cm.files.set i r.2.1 }, [r.1]) := by
          simp [applyOp, hg, hm]
        rw [happ]
        have hp := merge_pos hfm hn hm
        refine ⟨⟨hp.2.2, ?_⟩, ?_⟩
        · intro fm' hfm' it hit
          rcases List.mem_or_eq_of_mem_set hfm' with h1 | h1
          · exact hfiles fm' h1 it hit
          · subst h1
            exact hp.2.1 it hit
        · intro sp hsp
          simp at hsp
          subst hsp
          exact hp.1
  | registerTokens i toks =>
    simp only [applyOp]
    cases hg : cm.files[i]? with
    | none => exact ⟨⟨hn, hfiles⟩, by simp⟩
    | some fm =>
      have hfm := hfiles fm (List.getElem?_mem hg)
      have hp := register_tokens_pos hfm hn toks
      refine ⟨⟨hp.2.2, ?_⟩, ?_⟩
      · intro fm' hfm' it hit
        rcases List.mem_or_eq_of_mem_set hfm' with h1 | h1
        · exact hfiles fm' h1 it hit
        · subst h1
          exact hp.2.1 it hit
      · intro sp hsp
        simp only [List.mem_map] at hsp
        obtain ⟨t, ht, hsp⟩ := hsp
        subst hsp
        exact hp.1 t ht

theorem runOps_spanPos {cm : CodeMap} (ops : List CodeMapOp) (h : cm.SpanPos) :
    ∀ sp ∈ (runOps cm ops).2, 1 ≤ sp.id := by
  induction ops generalizing cm with
  | nil => simp [runOps]
  | cons op rest ih =>
    intro sp hsp
    simp only [runOps] at hsp
    rcases List.mem_append.mp hsp with h1 | h1
    · exact (applyOp_spanPos op h).2 sp h1
    · exact ih (applyOp_spanPos op h).1 sp h1

/-- `insert_span` preserves the table's well-formedness: ids stay below the
counter and keys stay distinct (justifying `FileMap.WF` as the invariant of
every reachable table). -/
theorem insert_span_WF {fm : FileMap} {n : Nat} (h : fm.WF n) (s e : Nat) :
    FileMap.WF (fm.insert_span n s e).2.1 (fm.insert_span n s e).2.2 := by
  obtain ⟨hlt, hnd⟩ := h
  unfold FileMap.insert_span
  cases hr : fm.reverse_lookup s e with
  | some sp => exact ⟨hlt, hnd⟩
  | none =>
    simp only
    constructor
    · intro it hmem
      rcases List.mem_cons.mp hmem with h1 | h1
      · subst h1
        simp
      · have := hlt it h1
        omega
    · simp only [List.map_cons, List.nodup_cons]
      refine ⟨?_, hnd⟩
      intro hmem
      simp only [List.mem_map] at hmem
      obtain ⟨it, hit, hsp⟩ := hmem
      have := hlt it hit
      rw [hsp] at this
      simp at this

/-! ## Claim theorems for the span registry -/

/-- A sample empty file registered in a `CodeMap`, used to witness the
registry theorems on concrete inputs. -/
def exampleFile : FileMap :=
  { name := "foo.rs", contents := "Hello World!", items := [] }

/-- A sample file whose table already holds spans for `[0,2)` and `[3,8)`. -/
def exampleFile2 : FileMap :=
  { name := "foo.rs", contents := "Hello World!", items := [(⟨1⟩, 0, 2), (⟨2⟩, 3, 8)] }

/-- C2: for every `FileMap` and valid byte range `[s, e)` of its contents,
calling `insert_span` twice with the same bounds returns the identical span
(and the identical table and counter), and the first call grows the table by
at most one entry. -/
theorem insert_span_idempotent (fm : FileMap) (n s e : Nat)
    (hse : s ≤ e) (he : e ≤ fm.contents.utf8ByteSize) :
    FileMap.insert_span (fm.insert_span n s e).2.1 (fm.insert_span n s e).2.2 s e
        = fm.insert_span n s e
    ∧ (fm.insert_span n s e).2.1.items.length ≤ fm.items.length + 1 := by
  cases h : fm.reverse_lookup s e with
  | some sp =>
    constructor
    · simp [FileMap.insert_span, h]
    · simp [FileMap.insert_span, h]
  | none =>
    have h2 : FileMap.reverse_lookup { fm with items := (⟨n⟩, s, e) :: fm.items } s e
        = some ⟨n⟩ := by
      unfold FileMap.reverse_lookup
      rw [List.find?_cons_of_pos _ (by simp)]
      rfl
    constructor
    · simp [FileMap.insert_span, h, h2]
    · simp [FileMap.insert_span, h]

/-- Witness for C2 at a concrete file and range. -/
theorem insert_span_idempotent_witness :
    FileMap.insert_span (exampleFile.insert_span 1 2 5).2.1
        (exampleFile.insert_span 1 2 5).2.2 2 5
      = exampleFile.insert_span 1 2 5
    ∧ (exampleFile.insert_span 1 2 5).2.1.items.length ≤ exampleFile.items.length + 1 :=
  insert_span_idempotent exampleFile 1 2 5 (by decide) (by decide)

/-- C3: merging two spans whose recorded ranges are `[a,b)` and `[c,d)`
returns exactly what `insert_span` returns for `[min a c, max b d)` —
deduplication included, since it is the same `insert_span` call. -/
theorem merge_eq_insert_enclosing (fm : FileMap) (n : Nat) (s1 s2 : Span) (a b c d : Nat)
    (h1 : fm.range_of s1 = some (a, b)) (h2 : fm.range_of s2 = some (c, d)) :
    fm.merge n s1 s2 = some (fm.insert_span n (min a c) (max b d)) := by
  unfold FileMap.merge
  rw [h1, h2]

/-- Witness for C3 at a concrete file holding two spans. -/
theorem merge_eq_insert_enclosing_witness :
    exampleFile2.merge 3 ⟨1⟩ ⟨2⟩ = some (exampleFile2.insert_span 3 (min 0 3) (max 2 8)) :=
  merge_eq_insert_enclosing exampleFile2 3 ⟨1⟩ ⟨2⟩ 0 2 3 8 (by decide) (by decide)

/-- C8: on a well-formed table, interning two distinct valid ranges yields
distinct spans. -/
theorem insert_span_injective (fm : FileMap) (n a b c d : Nat)
    (hwf : fm.WF n) (hne : (a, b) ≠ (c, d))
    (hv1 : a ≤ b ∧ b ≤ fm.contents.utf8ByteSize)
    (hv2 : c ≤ d ∧ d ≤ fm.contents.utf8ByteSize) :
    (fm.insert_span n a b).1 ≠
      (FileMap.insert_span (fm.insert_span n a b).2.1 (fm.insert_span n a b).2.2 c d).1 := by
  obtain ⟨hlt, hnd⟩ := hwf
  cases h1 : fm.reverse_lookup a b with
  | some sp1 =>
    obtain ⟨it1, hm1, hs1, ha1, hb1⟩ := reverse_lookup_some h1
    simp only [FileMap.insert_span, h1]
    cases h2 : fm.reverse_lookup c d with
    | some sp2 =>
      obtain ⟨it2, hm2, hs2, hc2, hd2⟩ := reverse_lookup_some h2
      simp only
      intro hcontra
      subst hcontra
      have : it1 = it2 := List.inj_on_of_nodup_map hnd hm1 hm2 (by rw [hs1, hs2])
      apply hne
      rw [← ha1, ← hb1, this, hc2, hd2]
    | none =>
      simp only
      intro hcontra
      have := hlt it1 hm1
      rw [hs1, hcontra] at this
      simp at this
  | none =>
    simp only [FileMap.insert_span, h1]
    have hhead : ((fun it => it.2.1 == c && it.2.2 == d)
        ((⟨n⟩ : Span), a, b)) = false := by
      simp only [Bool.and_eq_false_iff, beq_eq_false_iff_ne]
      by_contra hx
      push_neg at hx
      exact hne (by simp [hx.1, hx.2])
    cases h2 : fm.reverse_lookup c d with
    | some sp2 =>
      obtain ⟨it2, hm2, hs2, hc2, hd2⟩ := reverse_lookup_some h2
      have h2' : FileMap.reverse_lookup
          { fm with items := ((⟨n⟩ : Span), a, b) :: fm.items } c d = some sp2 := by
        unfold FileMap.reverse_lookup at h2 ⊢
        rw [List.find?_cons_of_neg _ (by simp [hhead]), h2]
      simp only [FileMap.insert_span, h2']
      intro hcontra
      have := hlt it2 hm2
      rw [hs2, ← hcontra] at this
      simp at this
    | none =>
      have h2' : FileMap.reverse_lookup
          { fm with items := ((⟨n⟩ : Span), a, b) :: fm.items } c d = none := by
        unfold FileMap.reverse_lookup at h2 ⊢
        rw [List.find?_cons_of_neg _ (by simp [hhead]), h2]
      simp only [FileMap.insert_span, h2']
      intro hcontra
      have : n = n + 1 := congrArg Span.id hcontra
      omega

/-- Witness for C8 at a concrete file and two distinct ranges. -/
theorem insert_span_injective_witness :
    (exampleFile.insert_span 1 0 1).1 ≠
      (FileMap.insert_span (exampleFile.insert_span 1 0 1).2.1
        (exampleFile.insert_span 1 0 1).2.2 0 2).1 :=
  insert_span_injective exampleFile 1 0 1 0 2
    ⟨by simp [exampleFile, FileMap.WF], by simp [exampleFile, FileMap.WF]⟩
    (by decide) (by decide) (by decide)

/-- C7: no span handed back by any sequence of registry calls on a freshly
created `CodeMap` is the dummy span (ids start at 1, the dummy is id 0). -/
theorem interned_span_ne_dummy (ops : List CodeMapOp) (sp : Span)
    (h : sp ∈ (runOps CodeMap.new ops).2) : sp ≠ Span.dummy := by
  have hpos : CodeMap.SpanPos CodeMap.new := by
    constructor
    · simp [CodeMap.new]
    · intro fm hfm
      simp [CodeMap.new] at hfm
  have h1 := runOps_spanPos ops hpos sp h
  intro hd
  rw [hd] at h1
  simp [Span.dummy] at h1

/-- Witness for C7: the first interned span of a fresh registry is not the
dummy. -/
theorem interned_span_ne_dummy_witness : (⟨1⟩ : Span) ≠ Span.dummy :=
  interned_span_ne_dummy [.insertFile ("a.rs") ("ab"), .insertSpan 0 0 1] ⟨1⟩ (by decide)

/-! ## Claim theorems for the lexer -/

/-- C1 (amended): when the input begins with a comment opener whose matching
closing marker never occurs in it, `skip_comments` consumes to the end of
input and then panics on the out-of-bounds slice in `skip_until` (modelled
as `none`); it does not return a byte count. -/
theorem skip_comments_unterminated_panics (src : List Char)
    (h : (List.isPrefixOf ['/', '/'] src = true ∧ containsSeq src ['\n'] = false) ∨
         (List.isPrefixOf ['\x7b'] src = true ∧ containsSeq src ['\x7d'] = false) ∨
         (List.isPrefixOf ['(', '*'] src = true ∧ containsSeq src ['*', ')'] = false)) :
    skip_comments src = none := by
  have huntil : ∀ pat : List Char, pat ≠ [] → containsSeq src pat = false →
      (skip_until src pat).map (fun leftovers => byteLen src - byteLen leftovers) = none := by
    intro pat hp hc
    rw [skip_until_none hp hc]
    rfl
  rcases h with ⟨hpre, hcl⟩ | ⟨hpre, hcl⟩ | ⟨hpre, hcl⟩
  · unfold skip_comments
    rw [if_pos hpre]
    exact huntil _ (by simp) hcl
  · obtain ⟨t, ht⟩ : ∃ t, src = '\x7b' :: t := by
      cases src with
      | nil => simp [List.isPrefixOf] at hpre
      | cons c cs =>
        simp only [List.isPrefixOf, Bool.and_eq_true, beq_iff_eq] at hpre
        exact ⟨cs, by rw [hpre.1]⟩
    subst ht
    unfold skip_comments
    have hc1 : ¬ (List.isPrefixOf ['/', '/'] ('\x7b' :: t) = true) := by
      rw [show List.isPrefixOf ['/', '/'] ('\x7b' :: t) = false from rfl]
      simp
    rw [if_neg hc1, if_pos hpre]
    exact huntil _ (by simp) hcl
  · obtain ⟨t, ht⟩ : ∃ t, src = '(' :: '*' :: t := by
      cases src with
      | nil => simp [List.isPrefixOf] at hpre
      | cons c cs =>
        cases cs with
        | nil => simp [List.isPrefixOf] at hpre
        | cons c2 cs2 =>
          simp only [List.isPrefixOf, Bool.and_eq_true, beq_iff_eq] at hpre
          exact ⟨cs2, by rw [hpre.1, hpre.2.1]⟩
    subst ht
    unfold skip_comments
    have hc1 : ¬ (List.isPrefixOf ['/', '/'] ('(' :: '*' :: t) = true) := by
      rw [show List.isPrefixOf ['/', '/'] ('(' :: '*' :: t) = false from rfl]
      simp
    have hc2 : ¬ (List.isPrefixOf ['\x7b'] ('(' :: '*' :: t) = true) := by
      rw [show List.isPrefixOf ['\x7b'] ('(' :: '*' :: t) = false from rfl]
      simp
    rw [if_neg hc1, if_neg hc2, if_pos hpre]
    exact huntil _ (by simp) hcl

/-- C1 counterexample: on `{ baz` (an unterminated block comment) the
comment skipper does not return a byte count at all — it panics. -/
theorem skip_comments_unterminated_counterexample :
    (List.isPrefixOf ['\x7b'] ("\x7b baz".toList) = true ∧
     containsSeq ("\x7b baz".toList) ['\x7d'] = false) ∧
    ¬ ∃ n, skip_comments ("\x7b baz".toList) = some n := by
  refine ⟨by decide, ?_⟩
  rintro ⟨n, hn⟩
  rw [show skip_comments ("\x7b baz".toList) = none from by decide] at hn
  exact Option.noConfusion hn

/-- Witness for C1 (amended) on an unterminated line comment. -/
theorem skip_comments_unterminated_panics_witness :
    skip_comments ("// no newline".toList) = none :=
  skip_comments_unterminated_panics ("// no newline".toList)
    (Or.inl ⟨by decide, by decide⟩)

/-- C4: tokenizing `foo = 1 + 2.34` succeeds with exactly the five expected
`(kind, start, end)` triples, in order. -/
theorem tokenize_basic_expression :
    tokenize ("foo = 1 + 2.34".toList) =
      .ok [(TokenKind.Identifier ("foo"), 0, 3), (TokenKind.Equals, 4, 5),
           (TokenKind.Integer 1, 6, 7), (TokenKind.Plus, 8, 9),
           (TokenKind.Decimal (2.34 : ℚ), 10, 14)] := by
  rw [show (2.34 : ℚ) = mkRat 234 (10 ^ 2) from Rat.ofScientific_true_def]
  decide

/-- C6: every error the tokenizer returns is wrapped in a
`MessageWithLocation` carrying the byte offset at which the tokenizer was
positioned; on `foo bar `%^&\` the offset is 8 (the backtick) with the
unknown-character error as cause. -/
theorem tokenize_errors_are_located :
    (∀ (src : List Char) (e : LexErr), tokenize src = .err e →
      ∃ loc rest,
        e = ErrorKind.MessageWithLocation loc ("Couldn't read the next token") :: rest) ∧
    tokenize ("foo bar `%^&\\".toList) =
      .err [ErrorKind.MessageWithLocation 8 ("Couldn't read the next token"),
            ErrorKind.UnknownCharacter '\x60'] := by
  constructor
  · intro src e h
    unfold tokenize at h
    cases hs : tokenizeFuel (src.length + 1) 0 src with
    | none =>
      rw [hs] at h
      exact absurd h (by simp)
    | some r =>
      rw [hs] at h
      simp at h
      subst h
      exact tokenizeFuel_err_located hs
  · decide

/-- Witness for C6: the general location property applied at the concrete
failing input. -/
theorem tokenize_errors_are_located_witness :
    ∃ loc rest,
      [ErrorKind.MessageWithLocation 8 ("Couldn't read the next token"),
       ErrorKind.UnknownCharacter '\x60']
        = ErrorKind.MessageWithLocation loc ("Couldn't read the next token") :: rest :=
  tokenize_errors_are_located.1 ("foo bar `%^&\\".toList)
    [ErrorKind.MessageWithLocation 8 ("Couldn't read the next token"),
     ErrorKind.UnknownCharacter '\x60'] (by decide)

/-- C9 (amended): tokenizing always terminates — with fuel `length + 1` the
loop reaches a final outcome (a token list, a located error, or a panic for
an unterminated block comment) and `tokenize` returns that outcome; it never
runs out of fuel. -/
theorem tokenize_always_terminates (src : List Char) :
    ∃ r, tokenizeFuel (src.length + 1) 0 src = some r ∧ tokenize src = r := by
  obtain ⟨r, hr⟩ :=
    Option.isSome_iff_exists.mp (@tokenizeFuel_isSome (src.length + 1) 0 src (by omega))
  refine ⟨r, hr, ?_⟩
  unfold tokenize
  rw [hr]
  rfl

/-- C9 counterexample: on `{` the tokenizer neither returns a token sequence
nor fails with an error — it panics inside the comment skipper. -/
theorem tokenize_panic_counterexample :
    ¬ ((∃ ts, tokenize ("\x7b".toList) = .ok ts) ∨
       (∃ e, tokenize ("\x7b".toList) = .err e)) := by
  have h : tokenize ("\x7b".toList) = .panic := by decide
  rintro (⟨ts, hts⟩ | ⟨e, he⟩)
  · rw [h] at hts
    exact RunResult.noConfusion hts
  · rw [h] at he
    exact RunResult.noConfusion he

/-- C10: when tokenize succeeds, every triple satisfies `start < end`, the
triples are in strictly increasing, non-overlapping positional order, and
all offsets are bounded by the input's byte length. -/
theorem tokenize_ok_triples_ordered (src : List Char) (ts : List (TokenKind × Nat × Nat))
    (h : tokenize src = .ok ts) : wellSpaced 0 (byteLen src) ts := by
  unfold tokenize at h
  cases hs : tokenizeFuel (src.length + 1) 0 src with
  | none =>
    rw [hs] at h
    exact absurd h (by simp)
  | some r =>
    rw [hs] at h
    simp at h
    subst h
    have := tokenizeFuel_ok_wellSpaced hs
    simpa using this

/-- Witness for C10 at a concrete successful run. -/
theorem tokenize_ok_triples_ordered_witness :
    wellSpaced 0 (byteLen ("ab".toList)) [(TokenKind.Identifier ("ab"), 0, 2)] :=
  tokenize_ok_triples_ordered ("ab".toList) [(TokenKind.Identifier ("ab"), 0, 2)]
    (by decide)

/-! ## The numeric lexer (C5) -/

theorem digit_ne_dot {c : Char} (h : c.isDigit = true) : c ≠ '.' := by
  intro hx
  subst hx
  exact absurd h (by decide)

/-- The stateful `take_while` loop of the numeric lexer accepts exactly the
run `numRun`, and the final `seen_dot` state records whether a dot was
accepted. -/
theorem takeWhileGo_numPred (l : List Char) (seen : Bool) :
    takeWhileGo numPred l seen = (seen || (numRun l seen).contains '.', numRun l seen) := by
  induction l generalizing seen with
  | nil => simp [takeWhileGo, numRun, List.contains]
  | cons c cs ih =>
    by_cases hd : c.isDigit = true
    · have hne : ('.' == c) = false := beq_eq_false_iff_ne.mpr (Ne.symm (digit_ne_dot hd))
      have hnumr : numRun (c :: cs) seen = c :: numRun cs seen := by
        simp [numRun, hd]
      have hpred : numPred seen c = (seen, true) := by
        simp [numPred, hd]
      rw [hnumr]
      simp only [takeWhileGo, hpred]
      rw [ih]
      simp [List.contains_cons, hne, Ne.symm (digit_ne_dot hd)]
    · by_cases hdot : c = '.'
      · subst hdot
        cases seen with
        | false =>
          have hnumr : numRun ('.' :: cs) false = '.' :: numRun cs true := by
            simp [numRun]
          have hpred : numPred false '.' = (true, true) := rfl
          rw [hnumr]
          simp only [takeWhileGo, hpred]
          rw [ih]
          simp [List.contains_cons]
        | true =>
          have hnumr : numRun ('.' :: cs) true = [] := by
            simp [numRun]
          have hpred : numPred true '.' = (true, false) := rfl
          rw [hnumr]
          simp only [takeWhileGo, hpred]
          simp [List.contains]
      · have hc : (c == '.') = false := beq_eq_false_iff_ne.mpr hdot
        have hnumr : numRun (c :: cs) seen = [] := by
          simp [numRun, hd, hc]
        have hpred : numPred seen c = (seen, false) := by
          simp [numPred, hd, hc]
        rw [hnumr]
        simp only [takeWhileGo, hpred]
        simp [List.contains]

/-- Every character of the accepted numeric run is a digit or a dot. -/
theorem numRun_all (l : List Char) (seen : Bool) :
    (numRun l seen).all (fun c => c.isDigit || c == '.') = true := by
  induction l generalizing seen with
  | nil => rfl
  | cons c cs ih =>
    simp only [numRun]
    split
    · rename_i hd
      simp [hd, ih]
    · split
      · rename_i hdot
        rw [Bool.and_eq_true] at hdot
        simp [hdot.1, ih]
      · rfl

/-- After a dot has been seen, the rest of the run contains no dot. -/
theorem numRun_true_no_dot (l : List Char) : (numRun l true).count '.' = 0 := by
  induction l with
  | nil => rfl
  | cons c cs ih =>
    simp only [numRun]
    split
    · rename_i hd
      rw [List.count_cons, ih]
      simp [beq_eq_false_iff_ne.mpr (digit_ne_dot hd)]
    · split
      · rename_i hdot
        simp at hdot
      · rfl

/-- The accepted numeric run contains at most one dot. -/
theorem numRun_false_dots (l : List Char) : (numRun l false).count '.' ≤ 1 := by
  induction l with
  | nil => simp [numRun]
  | cons c cs ih =>
    simp only [numRun]
    split
    · rename_i hd
      rw [List.count_cons]
      simpa [beq_eq_false_iff_ne.mpr (digit_ne_dot hd)] using ih
    · split
      · rename_i hdot
        rw [Bool.and_eq_true, beq_iff_eq] at hdot
        obtain ⟨hdot1, -⟩ := hdot
        subst hdot1
        rw [List.count_cons, numRun_true_no_dot]
        simp
      · simp

/-- C5 (amended): on input starting with a decimal digit the numeric lexer
consumes exactly the bytes of `numRun data false` — the maximal run of
digits containing at most one dot, a second dot terminating the run rather
than erroring.  If the run contains a dot it is parsed as a `Decimal`
(always successfully); otherwise it is parsed as an unsigned `Integer`,
which succeeds exactly when the run's value fits in `usize` and otherwise
surfaces the integer-parse error instead of a token. -/
theorem tokenize_number_spec (c : Char) (cs : List Char) (h : c.isDigit = true) :
    ((numRun (c :: cs) false).contains '.' = true →
      (∀ q, parseF64 (numRun (c :: cs) false) = some q →
        tokenize_number (c :: cs) = .ok (.Decimal q, byteLen (numRun (c :: cs) false))) ∧
      (parseF64 (numRun (c :: cs) false)).isSome = true) ∧
    ((numRun (c :: cs) false).contains '.' = false →
      (digitsToNat (numRun (c :: cs) false) ≤ USIZE_MAX →
        tokenize_number (c :: cs) =
          .ok (.Integer (digitsToNat (numRun (c :: cs) false)),
               byteLen (numRun (c :: cs) false))) ∧
      (USIZE_MAX < digitsToNat (numRun (c :: cs) false) →
        tokenize_number (c :: cs) = .error [.IntParsing])) := by
  have hp : numRun (c :: cs) false = c :: numRun cs false := by
    simp [numRun, h]
  have hpne : ¬ byteLen (numRun (c :: cs) false) = 0 := by
    rw [hp, byteLen_cons]
    have := Char.utf8Size_pos c
    omega
  have hst : take_while_st (c :: cs) false numPred =
      ((numRun (c :: cs) false).contains '.',
       .ok (numRun (c :: cs) false, byteLen (numRun (c :: cs) false))) := by
    unfold take_while_st
    rw [takeWhileGo_numPred]
    simp [hpne]
  have ht : tokenize_number (c :: cs) =
      (if (numRun (c :: cs) false).contains '.' = true then
        match parseF64 (numRun (c :: cs) false) with
        | some n => .ok (.Decimal n, byteLen (numRun (c :: cs) false))
        | none => .error [.FloatParsing]
      else
        match parseUsize (numRun (c :: cs) false) with
        | some n => .ok (.Integer n, byteLen (numRun (c :: cs) false))
        | none => .error [.IntParsing]) := by
    unfold tokenize_number
    rw [hst]
  constructor
  · intro hdot
    constructor
    · intro q hq
      rw [ht, if_pos hdot, hq]
    · have hcond : ((numRun (c :: cs) false).all (fun x => x.isDigit || x == '.') = true ∧
          (numRun (c :: cs) false).count '.' ≤ 1 ∧
          (numRun (c :: cs) false).any Char.isDigit = true) :=
        ⟨numRun_all _ _, numRun_false_dots _, by rw [hp]; simp [h]⟩
      unfold parseF64
      rw [if_pos hcond]
      rfl
  · intro hdot
    have hall : (numRun (c :: cs) false).all Char.isDigit = true := by
      rw [List.all_eq_true]
      intro x hx
      have h1 := numRun_all (c :: cs) false
      rw [List.all_eq_true] at h1
      have hx2 := h1 x hx
      rw [Bool.or_eq_true] at hx2
      rcases hx2 with hxd | hxd
      · exact hxd
      · exfalso
        rw [beq_iff_eq] at hxd
        subst hxd
        have h2 : (numRun (c :: cs) false).contains '.' = true :=
          List.elem_eq_true_of_mem hx
        rw [hdot] at h2
        exact Bool.noConfusion h2
    have hne : numRun (c :: cs) false ≠ [] := by
      rw [hp]
      simp
    have hnotdot : ¬ (numRun (c :: cs) false).contains '.' = true := by
      rw [hdot]
      simp
    constructor
    · intro hle
      have hpu : parseUsize (numRun (c :: cs) false) =
          some (digitsToNat (numRun (c :: cs) false)) := by
        unfold parseUsize
        rw [if_pos ⟨hne, hall, hle⟩]
      rw [ht, if_neg hnotdot, hpu]
    · intro hgt
      have hpu : parseUsize (numRun (c :: cs) false) = none := by
        unfold parseUsize
        rw [if_neg ?hcond]
        case hcond =>
          rintro ⟨-, -, hle⟩
          omega
      rw [ht, if_neg hnotdot, hpu]

/-- C5 counterexample: a 20-digit integer literal is not lexed to an
`Integer` token — the usize parse overflows and the numeric lexer returns
the integer-parse error. -/
theorem tokenize_number_overflow_counterexample :
    ('9'.isDigit = true) ∧
    tokenize_number (List.replicate 20 '9') = .error [ErrorKind.IntParsing] ∧
    ∀ r, tokenize_number (List.replicate 20 '9') ≠ .ok r := by
  refine ⟨by decide, by decide, ?_⟩
  intro r hr
  rw [show tokenize_number (List.replicate 20 '9') = .error [ErrorKind.IntParsing] from
    by decide] at hr
  exact Except.noConfusion hr

/-- Witness for C5 (amended) at the claim's concrete input: `12.3.456`
yields `Decimal 12.3` after exactly 4 bytes. -/
theorem tokenize_number_spec_witness :
    tokenize_number ("12.3.456".toList) = .ok (.Decimal (12.3 : ℚ), 4) := by
  have hmain := (tokenize_number_spec '1' ("2.3.456".toList) (by decide)).1
  have hr := (hmain (by decide)).1 (mkRat 123 (10 ^ 1)) (by decide)
  rw [show (12.3 : ℚ) = mkRat 123 (10 ^ 1) from Rat.ofScientific_true_def]
  exact hr

end StaticAnalyser
